import Mathlib

set_option maxRecDepth 10000
set_option linter.unusedVariables false

/-! Shallow embedding of the Morse converter (`src/morse_converter.py`).

Python strings are modelled as `List Char`; on the ASCII characters relevant
here, Python's `str.upper()` coincides with `Char.toUpper`.  The audio buffer
is modelled at the level the code manipulates it: a list of tone/silence
segments, where a tone's sample count is the `int(44100 * duration / 1000)`
computed in `generate_tone`, and `AudioSegment.silent(duration=ms)` — a call
into the external pydub collaborator — is taken at its documented contract of
`ms` milliseconds of silence.  Segment durations are exact rationals
(samples · 1000 / 44100 for tones).
-/

/-- The `MORSE_CODE_DICT` constant: character to Morse-code mapping,
in source order. -/
def MORSE_CODE_DICT : List (Char × List Char) :=
  [('A', ".-".toList), ('B', "-...".toList), ('C', "-.-.".toList), ('D', "-..".toList),
   ('E', ".".toList), ('F', "..-.".toList), ('G', "--.".toList), ('H', "....".toList),
   ('I', "..".toList), ('J', ".---".toList), ('K', "-.-".toList), ('L', ".-..".toList),
   ('M', "--".toList), ('N', "-.".toList), ('O', "---".toList), ('P', ".--.".toList),
   ('Q', "--.-".toList), ('R', ".-.".toList), ('S', "...".toList), ('T', "-".toList),
   ('U', "..-".toList), ('V', "...-".toList), ('W', ".--".toList), ('X', "-..-".toList),
   ('Y', "-.--".toList), ('Z', "--..".toList), ('0', "-----".toList), ('1', ".----".toList),
   ('2', "..---".toList), ('3', "...--".toList), ('4', "....-".toList), ('5', ".....".toList),
   ('6', "-....".toList), ('7', "--...".toList), ('8', "---..".toList), ('9', "----.".toList),
   (' ', "/".toList)]

/-- `MORSE_CODE_DICT.get(c, ...)` as an optional lookup (dictionary keys are
distinct, so first-match lookup is the dictionary lookup). -/
def dictLookup (c : Char) : Option (List Char) :=
  (MORSE_CODE_DICT.find? (fun p => p.1 == c)).map (fun p => p.2)

/-- Lookup in `reverse_dict`, the value-to-key dictionary comprehension built
inside `MorseEncoder.decode`.  All values of `MORSE_CODE_DICT` are distinct,
so the comprehension (in which a later duplicate value would win) agrees with
first-match lookup by value. -/
def reverseLookup (code : List Char) : Option Char :=
  (MORSE_CODE_DICT.find? (fun p => p.2 == code)).map (fun p => p.1)

/-- Python's `sep.join(parts)`: parts interleaved with the separator.  Note
that empty parts still get a separator on each side. -/
def joinSep (sep : List Char) : List (List Char) → List Char
  | [] => []
  | [x] => x
  | x :: y :: xs => x ++ sep ++ joinSep sep (y :: xs)

/-- The ASCII whitespace characters recognised by Python's `str.split()`. -/
def isPyWs (c : Char) : Bool :=
  c = ' ' || c = '\t' || c = '\n' || c = '\r' || c = '\x0b' || c = '\x0c'

/-- Worker for `splitWs`: `acc` holds the (reversed) characters of the token
currently being read. -/
def splitWsAux : List Char → List Char → List (List Char)
  | [], acc => if acc = [] then [] else [acc.reverse]
  | c :: rest, acc =>
    if isPyWs c then
      if acc = [] then splitWsAux rest [] else acc.reverse :: splitWsAux rest []
    else
      splitWsAux rest (c :: acc)

/-- Python's `s.split()` with no argument: split on runs of whitespace,
discarding empty tokens. -/
def splitWs (s : List Char) : List (List Char) :=
  splitWsAux s []

/-- `MorseEncoder.encode`: join the per-character codes (empty for characters
absent from the dictionary) with single spaces. -/
def MorseEncoder.encode (text : List Char) : List Char :=
  joinSep [' '] (text.map (fun char => (dictLookup char.toUpper).getD []))

/-- One token's contribution to `MorseEncoder.decode`:
`reverse_dict.get(code, ...)` with an empty-string default. -/
def decodeToken (code : List Char) : List Char :=
  match reverseLookup code with
  | some ch => [ch]
  | none => []

/-- `MorseEncoder.decode`: split on whitespace, look each token up in the
reversed dictionary, concatenate. -/
def MorseEncoder.decode (morse : List Char) : List Char :=
  ((splitWs morse).map decodeToken).flatten

/-- `str.replace(a, b)` for single-character patterns: replace every
occurrence. -/
def replaceChar (s : List Char) (a b : Char) : List Char :=
  s.map (fun c => if c = a then b else c)

/-- `SubstitutionCipher`: stores its `key` (unused by the transform). -/
structure SubstitutionCipher where
  key : String

/-- `SubstitutionCipher.encode`:
`morse.replace(dot, tmp).replace(dash, dot).replace(tmp, dash)` with the
temporary placeholder `X`. -/
def SubstitutionCipher.encode (cipher : SubstitutionCipher) (morse : List Char) : List Char :=
  replaceChar (replaceChar (replaceChar morse '.' 'X') '-' '.') 'X' '-'

/-- `SubstitutionCipher.decode`: calls `encode` (the transform is
symmetric). -/
def SubstitutionCipher.decode (cipher : SubstitutionCipher) (morse : List Char) : List Char :=
  cipher.encode morse

/-- The concrete encoder instances the program builds: `MorseEncoder()` and
`SubstitutionCipher(key)`. -/
inductive EncoderInst where
  | morse
  | subst (key : String)

/-- Dynamic dispatch of `encoder.encode(data)`. -/
def EncoderInst.encode : EncoderInst → List Char → List Char
  | .morse, data => MorseEncoder.encode data
  | .subst key, data => (SubstitutionCipher.mk key).encode data

/-- Dynamic dispatch of `encoder.decode(data)`. -/
def EncoderInst.decode : EncoderInst → List Char → List Char
  | .morse, data => MorseEncoder.decode data
  | .subst key, data => (SubstitutionCipher.mk key).decode data

/-- `EncoderChain`: the ordered list of added encoders. -/
structure EncoderChain where
  encoders : List EncoderInst

/-- `EncoderChain.encode`: fold the data forward through every stage. -/
def EncoderChain.encode (chain : EncoderChain) (data : List Char) : List Char :=
  chain.encoders.foldl (fun d e => e.encode d) data

/-- `EncoderChain.decode`: fold the data through every stage's `decode`, in
reverse order. -/
def EncoderChain.decode (chain : EncoderChain) (data : List Char) : List Char :=
  chain.encoders.reverse.foldl (fun d e => e.decode d) data

/-- Uppercasing a string, character by character. -/
def upperL (s : List Char) : List Char :=
  s.map Char.toUpper

/-- The sample count of `generate_tone(duration)`:
`int(44100 * duration / 1000)` (truncating division). -/
def toneNumSamples (durMs : ℕ) : ℕ :=
  44100 * durMs / 1000

/-- Exact duration, in milliseconds, of a tone of `durMs` requested
milliseconds: its sample count divided by the 44100 Hz frame rate. -/
def toneDurQ (durMs : ℕ) : ℚ :=
  (toneNumSamples durMs : ℚ) * 1000 / 44100

/-- One audio segment appended by `generate_morse_audio`: either a
`generate_tone(...)` result or an `AudioSegment.silent(...)` of the given
requested duration. -/
inductive Seg where
  | tone (freq : ℚ) (durMs : ℕ)
  | silence (durMs : ℕ)
deriving DecidableEq

/-- Exact duration of a segment in milliseconds.  A tone's duration comes
from its truncated sample count; silence is taken at pydub's contract of
exactly the requested milliseconds. -/
def Seg.durationMs : Seg → ℚ
  | .tone _ d => toneDurQ d
  | .silence d => (d : ℚ)

/-- The segments appended for one character of the Morse string by the loop
body of `generate_morse_audio`; characters other than the four Morse symbols
match no branch and append nothing. -/
def symbolSegs (freq : ℚ) (dot_duration : ℕ) (symbol : Char) : List Seg :=
  if symbol = '.' then [Seg.tone freq dot_duration, Seg.silence dot_duration]
  else if symbol = '-' then [Seg.tone freq (dot_duration * 3), Seg.silence dot_duration]
  else if symbol = ' ' then [Seg.silence (dot_duration * 2)]
  else if symbol = '/' then [Seg.silence (dot_duration * 6)]
  else []

/-- `generate_morse_audio`: 3000 ms lead-in silence, the per-symbol segments
in input order, 3000 ms lead-out silence. -/
def generate_morse_audio (morse : List Char) (freq : ℚ) (dot_duration : ℕ) : List Seg :=
  Seg.silence 3000 :: (morse.map (symbolSegs freq dot_duration)).flatten ++ [Seg.silence 3000]

/-- Total duration of a segment list in (exact, rational) milliseconds. -/
def audioDurationMs (segs : List Seg) : ℚ :=
  (segs.map Seg.durationMs).sum

/-- Round a real toward zero, as numpy's `astype` cast to an integer type
does for values within range. -/
noncomputable def intTrunc (x : ℝ) : ℤ :=
  if 0 ≤ x then ⌊x⌋ else ⌈x⌉

/-- The `k`-th point of `np.linspace(0, durMs / 1000, toneNumSamples durMs,
False)`: start `0`, step `(durMs / 1000) / num`. -/
noncomputable def toneTime (durMs k : ℕ) : ℝ :=
  (k : ℝ) * ((durMs : ℝ) / 1000) / (toneNumSamples durMs : ℝ)

/-- The float waveform of `generate_tone`:
`np.sin(2 * np.pi * freq * t) * 0.5`, idealising IEEE doubles as reals. -/
noncomputable def toneWaveform (freq : ℚ) (durMs k : ℕ) : ℝ :=
  Real.sin (2 * Real.pi * (freq : ℝ) * toneTime durMs k) * 0.5

/-- The quantized PCM sample: `(waveform * 32767).astype(np.int16)`
(truncation toward zero; the value is within int16 range, so no wrap). -/
noncomputable def tonePCM (freq : ℚ) (durMs k : ℕ) : ℤ :=
  intTrunc (toneWaveform freq durMs k * 32767)

/-- The buffer `generate_tone` returns: the quantized samples, tagged
`frame_rate=44100, sample_width=2, channels=1` as in the `AudioSegment`
constructor call. -/
structure ToneBuffer where
  numSamples : ℕ
  sample : ℕ → ℤ
  frameRate : ℕ
  sampleWidth : ℕ
  channels : ℕ

/-- `generate_tone(duration)` inside `generate_morse_audio`. -/
noncomputable def generate_tone (freq : ℚ) (durMs : ℕ) : ToneBuffer :=
  { numSamples := toneNumSamples durMs
    sample := tonePCM freq durMs
    frameRate := 44100
    sampleWidth := 2
    channels := 1 }

/-- Outcome of the external `audio.export(...)` call inside `save_audio`:
either it succeeds or it raises an exception carrying a message. -/
inductive ExportOutcome where
  | success
  | failure (err : String)

/-- Observable behaviour of `save_audio`: the lines printed and the exit
status (`none` when the function returns normally). -/
structure SaveResult where
  printed : List String
  exitCode : Option ℕ
deriving DecidableEq

/-- `save_audio`: on a successful export print a confirmation and return;
on any exception print the error and a hint, then `sys.exit(1)`. -/
def save_audio (res : ExportOutcome) (filename : String) (format : String) : SaveResult :=
  match res with
  | .success =>
      { printed := ["Saved audio to " ++ filename ++ " (format=" ++ format ++ ")"]
        exitCode := none }
  | .failure e =>
      { printed := ["Failed to save audio to " ++ filename ++ ": " ++ e,
                    "Make sure ffmpeg is installed and available on PATH for pydub."]
        exitCode := some 1 }

/-! Helper lemmas about the codebook and string plumbing. -/

/-- Every codebook entry has a nonempty, whitespace-free code over the Morse
alphabet, is recovered by reverse lookup, and has an upper-case key. -/
theorem dict_entry_facts : ∀ p ∈ MORSE_CODE_DICT,
    p.2 ≠ [] ∧ (∀ c ∈ p.2, isPyWs c = false) ∧
    (∀ c ∈ p.2, c = '.' ∨ c = '-' ∨ c = '/') ∧
    reverseLookup p.2 = some p.1 ∧ p.1.toUpper = p.1 := by decide

/-- A successful `dictLookup` exhibits a codebook entry. -/
theorem dictLookup_mem {c : Char} {v : List Char} (h : dictLookup c = some v) :
    (c, v) ∈ MORSE_CODE_DICT := by
  unfold dictLookup at h
  cases hf : MORSE_CODE_DICT.find? (fun p => p.1 == c) with
  | none => rw [hf] at h; simp at h
  | some p =>
    rw [hf] at h
    have hm := List.mem_of_find?_eq_some hf
    have hp := List.find?_some hf
    have hp1 : p.1 = c := by simpa using hp
    have hv : p.2 = v := by simpa using h
    have hpc : p = (c, v) := by cases p; simp_all
    rwa [hpc] at hm

/-- Scanning a whitespace-free token followed by a space closes the current
token. -/
theorem splitWsAux_token {t : List Char} (ht : ∀ c ∈ t, isPyWs c = false) :
    ∀ acc s, (acc ≠ [] ∨ t ≠ []) →
      splitWsAux (t ++ ' ' :: s) acc = (acc.reverse ++ t) :: splitWsAux s [] := by
  induction t with
  | nil =>
    intro acc s hne
    have hacc : acc ≠ [] := by tauto
    simp [splitWsAux, isPyWs, hacc]
  | cons c t ih =>
    intro acc s hne
    have hc : isPyWs c = false := ht c (by simp)
    have ht2 : ∀ x ∈ t, isPyWs x = false := fun x hx => ht x (by simp [hx])
    show splitWsAux (c :: (t ++ ' ' :: s)) acc = _
    rw [splitWsAux, hc]
    simp only [Bool.false_eq_true, if_false]
    rw [ih ht2 (c :: acc) s (Or.inl (by simp))]
    simp

/-- Scanning a final whitespace-free token yields exactly that token. -/
theorem splitWsAux_last {t : List Char} (ht : ∀ c ∈ t, isPyWs c = false) :
    ∀ acc, (acc ≠ [] ∨ t ≠ []) → splitWsAux t acc = [acc.reverse ++ t] := by
  induction t with
  | nil =>
    intro acc hne
    have hacc : acc ≠ [] := by tauto
    simp [splitWsAux, hacc]
  | cons c t ih =>
    intro acc hne
    have hc : isPyWs c = false := ht c (by simp)
    rw [splitWsAux, hc]
    simp only [Bool.false_eq_true, if_false]
    rw [ih (fun x hx => ht x (by simp [hx])) (c :: acc) (Or.inl (by simp))]
    simp

/-- Splitting on whitespace is a left inverse of joining with single spaces,
for nonempty whitespace-free tokens. -/
theorem splitWs_joinSep {tokens : List (List Char)}
    (h : ∀ t ∈ tokens, t ≠ [] ∧ ∀ c ∈ t, isPyWs c = false) :
    splitWs (joinSep [' '] tokens) = tokens := by
  induction tokens with
  | nil => rfl
  | cons t rest ih =>
    cases rest with
    | nil =>
      have hfacts := h t (by simp)
      unfold splitWs joinSep
      rw [splitWsAux_last hfacts.2 [] (Or.inr hfacts.1)]
      simp
    | cons t2 rest2 =>
      have hfacts := h t (by simp)
      unfold splitWs
      have hjoin : joinSep [' '] (t :: t2 :: rest2) = t ++ ' ' :: joinSep [' '] (t2 :: rest2) := by
        rw [joinSep]
        simp
      rw [hjoin, splitWsAux_token hfacts.2 [] _ (Or.inr hfacts.1)]
      rw [List.reverse_nil, List.nil_append]
      exact congrArg (t :: ·) (ih (fun x hx => h x (by simp [hx])))

/-- Flattening a list of singletons is a map. -/
theorem flatten_singletons {α β : Type} (f : α → β) (l : List α) :
    (l.map (fun a => [f a])).flatten = l.map f := by
  induction l with
  | nil => rfl
  | cons a l ih => simp [ih]

/-- A character of a joined string comes from the separator or from one of
the parts. -/
theorem mem_joinSep {sep : List Char} {l : List (List Char)} {c : Char}
    (h : c ∈ joinSep sep l) : c ∈ sep ∨ ∃ t ∈ l, c ∈ t := by
  induction l with
  | nil => simp [joinSep] at h
  | cons t rest ih =>
    cases rest with
    | nil => exact Or.inr ⟨t, by simp, h⟩
    | cons t2 rest2 =>
      rw [joinSep] at h
      simp only [List.append_assoc, List.mem_append] at h
      rcases h with h | h | h
      · exact Or.inr ⟨t, by simp, h⟩
      · exact Or.inl h
      · rcases ih h with h1 | ⟨u, hu, hcu⟩
        · exact Or.inl h1
        · exact Or.inr ⟨u, by simp [hu], hcu⟩

/-- Every character of a Morse encoding is a dot, dash, space or slash. -/
theorem encode_mem_alph {text : List Char} :
    ∀ c ∈ MorseEncoder.encode text, c ∈ (['.', '-', ' ', '/'] : List Char) := by
  intro c hc
  unfold MorseEncoder.encode at hc
  rcases mem_joinSep hc with hsep | ⟨t, ht, hct⟩
  · simp only [List.mem_singleton] at hsep
    simp [hsep]
  · simp only [List.mem_map] at ht
    obtain ⟨ch, hch, rfl⟩ := ht
    cases hd : dictLookup ch.toUpper with
    | none => rw [hd] at hct; simp at hct
    | some v =>
      rw [hd] at hct
      simp only [Option.getD_some] at hct
      have hmem := dictLookup_mem hd
      rcases (dict_entry_facts _ hmem).2.2.1 c hct with h | h | h <;> simp [h]

/-- The three chained single-character replacements of the substitution
cipher amount to one character map: dot to dash, dash to dot, and the
placeholder `X` to dash. -/
theorem substBody_eq_map (cipher : SubstitutionCipher) (m : List Char) :
    cipher.encode m = m.map (fun c =>
      if c = '.' then '-' else if c = '-' then '.' else if c = 'X' then '-' else c) := by
  unfold SubstitutionCipher.encode replaceChar
  rw [List.map_map, List.map_map]
  apply List.map_congr_left
  intro c hc
  simp only [Function.comp]
  by_cases h1 : c = '.'
  · simp [h1]
  · by_cases h2 : c = '-'
    · simp [h2]
    · by_cases h3 : c = 'X'
      · simp [h3]
      · simp [h1, h2, h3]

/-- On strings over the Morse alphabet the substitution cipher is an
involution. -/
theorem subst_invol (cipher : SubstitutionCipher) {m : List Char}
    (h : ∀ c ∈ m, c ∈ (['.', '-', ' ', '/'] : List Char)) :
    cipher.encode (cipher.encode m) = m := by
  rw [substBody_eq_map, substBody_eq_map, List.map_map]
  have hid : ∀ c ∈ m, ((fun c =>
      if c = '.' then '-' else if c = '-' then '.' else if c = 'X' then '-' else c) ∘
      (fun c =>
      if c = '.' then '-' else if c = '-' then '.' else if c = 'X' then '-' else c)) c
      = id c := by
    intro c hc
    have hmem := h c hc
    simp only [List.mem_cons, List.mem_singleton, List.not_mem_nil, or_false] at hmem
    rcases hmem with rfl | rfl | rfl | rfl <;> rfl
  rw [List.map_congr_left hid, List.map_id]

/-- Decoding an encoding of in-vocabulary text recovers the text,
uppercased. -/
theorem decode_encode {text : List Char}
    (h : ∀ c ∈ text, (dictLookup c.toUpper).isSome = true) :
    MorseEncoder.decode (MorseEncoder.encode text) = text.map Char.toUpper := by
  unfold MorseEncoder.decode MorseEncoder.encode
  have htok : ∀ t ∈ text.map (fun char => (dictLookup char.toUpper).getD []),
      t ≠ [] ∧ ∀ c ∈ t, isPyWs c = false := by
    intro t ht
    simp only [List.mem_map] at ht
    obtain ⟨ch, hch, rfl⟩ := ht
    obtain ⟨v, hv⟩ := Option.isSome_iff_exists.mp (h ch hch)
    rw [hv]
    have hfacts := dict_entry_facts _ (dictLookup_mem hv)
    exact ⟨hfacts.1, hfacts.2.1⟩
  rw [splitWs_joinSep htok, List.map_map]
  have hone : ∀ ch ∈ text,
      (decodeToken ∘ fun char => (dictLookup char.toUpper).getD []) ch = [ch.toUpper] := by
    intro ch hch
    obtain ⟨v, hv⟩ := Option.isSome_iff_exists.mp (h ch hch)
    simp only [Function.comp, hv, Option.getD_some]
    unfold decodeToken
    rw [(dict_entry_facts _ (dictLookup_mem hv)).2.2.2.1]
  rw [List.map_congr_left hone]
  exact flatten_singletons Char.toUpper text

/-- Uppercasing is idempotent on any character whose uppercase form is in
the codebook. -/
theorem upper_idem {c : Char} (h : (dictLookup c.toUpper).isSome = true) :
    c.toUpper.toUpper = c.toUpper := by
  obtain ⟨v, hv⟩ := Option.isSome_iff_exists.mp h
  exact (dict_entry_facts _ (dictLookup_mem hv)).2.2.2.2

/-- When the requested tone duration is a multiple of 10 ms, the truncated
sample count represents it exactly. -/
theorem toneDur_exact {d : ℕ} (h : 10 ∣ d) : toneDurQ d = (d : ℚ) := by
  obtain ⟨m, rfl⟩ := h
  unfold toneDurQ toneNumSamples
  have hns : 44100 * (10 * m) / 1000 = 441 * m := by
    rw [show 44100 * (10 * m) = 441 * m * 1000 by ring]
    exact Nat.mul_div_cancel _ (by norm_num)
  rw [hns]
  rw [div_eq_iff (by norm_num : (44100 : ℚ) ≠ 0)]
  push_cast
  ring

/-- Every segment has a nonnegative duration. -/
theorem seg_duration_nonneg (s : Seg) : 0 ≤ s.durationMs := by
  cases s with
  | tone freq d =>
    unfold Seg.durationMs toneDurQ
    positivity
  | silence d =>
    unfold Seg.durationMs
    positivity

/-- Total duration of the loop-body segments for one symbol, for a unit
that is a multiple of 10 ms. -/
theorem symbolSegs_dur (freq : ℚ) {u : ℕ} (hu : 10 ∣ u) (c : Char) :
    ((symbolSegs freq u c).map Seg.durationMs).sum =
      if c = '.' then 2 * (u : ℚ) else if c = '-' then 4 * (u : ℚ)
      else if c = ' ' then 2 * (u : ℚ) else if c = '/' then 6 * (u : ℚ) else 0 := by
  unfold symbolSegs
  by_cases h1 : c = '.'
  · subst h1
    simp [Seg.durationMs, toneDur_exact hu]
    ring
  · by_cases h2 : c = '-'
    · subst h2
      simp [Seg.durationMs, toneDur_exact (Dvd.dvd.mul_right hu 3)]
      ring
    · by_cases h3 : c = ' '
      · subst h3
        simp [Seg.durationMs]
        ring
      · by_cases h4 : c = '/'
        · subst h4
          simp [Seg.durationMs]
          ring
        · simp [h1, h2, h3, h4]

/-- Total duration of the symbol region of the buffer, for a unit that is a
multiple of 10 ms, expressed through the four symbol counts. -/
theorem mid_dur (freq : ℚ) {u : ℕ} (hu : 10 ∣ u) (morse : List Char) :
    (((morse.map (symbolSegs freq u)).flatten).map Seg.durationMs).sum =
      (morse.count '.' : ℚ) * (2 * u) + (morse.count '-' : ℚ) * (4 * u)
      + (morse.count ' ' : ℚ) * (2 * u) + (morse.count '/' : ℚ) * (6 * u) := by
  induction morse with
  | nil => simp
  | cons c rest ih =>
    rw [List.map_cons, List.flatten_cons, List.map_append, List.sum_append, ih,
      symbolSegs_dur freq hu c]
    rw [List.count_cons, List.count_cons, List.count_cons, List.count_cons]
    by_cases h1 : c = '.'
    · subst h1
      simp
      ring
    · by_cases h2 : c = '-'
      · subst h2
        simp
        ring
      · by_cases h3 : c = ' '
        · subst h3
          simp
          ring
        · by_cases h4 : c = '/'
          · subst h4
            simp
            ring
          · have b1 : ('.' == c) = false := beq_eq_false_iff_ne.mpr (Ne.symm h1)
            have b2 : ('-' == c) = false := beq_eq_false_iff_ne.mpr (Ne.symm h2)
            have b3 : (' ' == c) = false := beq_eq_false_iff_ne.mpr (Ne.symm h3)
            have b4 : ('/' == c) = false := beq_eq_false_iff_ne.mpr (Ne.symm h4)
            simp [h1, h2, h3, h4, b1, b2, b3, b4]

/-- Truncation toward zero of a real of magnitude at most 16383.5 has
magnitude at most 16383. -/
theorem intTrunc_abs_le {x : ℝ} (h : |x| ≤ 16383.5) : |intTrunc x| ≤ 16383 := by
  rcases abs_le.mp h with ⟨hlo, hhi⟩
  unfold intTrunc
  split_ifs with hx
  · have h0 : 0 ≤ ⌊x⌋ := Int.floor_nonneg.mpr hx
    have hub : ⌊x⌋ ≤ 16383 := by
      have hf : (⌊x⌋ : ℝ) < 16384 := lt_of_le_of_lt (le_trans (Int.floor_le x) hhi) (by norm_num)
      have hf2 : ⌊x⌋ < (16384 : ℤ) := by exact_mod_cast hf
      omega
    rw [abs_of_nonneg h0]
    exact hub
  · push_neg at hx
    have hle : ⌈x⌉ ≤ 0 := Int.ceil_le.mpr (by exact_mod_cast le_of_lt hx)
    have hlb : -16383 ≤ ⌈x⌉ := by
      have hc : (-16384 : ℝ) < (⌈x⌉ : ℝ) :=
        lt_of_lt_of_le (by norm_num) (le_trans hlo (Int.le_ceil x))
      have hc2 : (-16384 : ℤ) < ⌈x⌉ := by exact_mod_cast hc
      omega
    rw [abs_of_nonpos hle]
    omega

/-- The scaled float waveform is bounded by half of full scale. -/
theorem toneWaveform_abs_le (freq : ℚ) (durMs k : ℕ) :
    |toneWaveform freq durMs k * 32767| ≤ 16383.5 := by
  unfold toneWaveform
  have hs : |Real.sin (2 * Real.pi * (freq : ℝ) * toneTime durMs k)| ≤ 1 :=
    abs_le.mpr ⟨Real.neg_one_le_sin _, Real.sin_le_one _⟩
  rw [abs_mul, abs_mul]
  calc |Real.sin (2 * Real.pi * (freq : ℝ) * toneTime durMs k)| * |(0.5 : ℝ)| * |(32767 : ℝ)|
      ≤ 1 * |(0.5 : ℝ)| * |(32767 : ℝ)| := by
        apply mul_le_mul_of_nonneg_right _ (abs_nonneg _)
        exact mul_le_mul_of_nonneg_right hs (abs_nonneg _)
    _ = 16383.5 := by
        rw [show |(0.5 : ℝ)| = 0.5 from abs_of_nonneg (by norm_num),
          show |(32767 : ℝ)| = 32767 from abs_of_nonneg (by norm_num)]
        norm_num

/-! Claim theorems. -/

/-- C1: for a pipeline built as MorseEncoder alone, or MorseEncoder followed
by the substitution cipher, chain-decoding the chain-encoding of a text made
of codebook characters equals the text, up to uppercasing. -/
theorem C1_pipeline_roundtrip (key : String) (stages : List EncoderInst) (text : List Char)
    (hstages : stages = [EncoderInst.morse] ∨
      stages = [EncoderInst.morse, EncoderInst.subst key])
    (htext : ∀ c ∈ text, (dictLookup c.toUpper).isSome = true) :
    upperL ((EncoderChain.mk stages).decode ((EncoderChain.mk stages).encode text)) =
      upperL text := by
  have hupper : upperL (text.map Char.toUpper) = upperL text := by
    unfold upperL
    rw [List.map_map]
    exact List.map_congr_left (fun c hc => upper_idem (htext c hc))
  rcases hstages with rfl | rfl
  · show upperL (MorseEncoder.decode (MorseEncoder.encode text)) = upperL text
    rw [decode_encode htext]
    exact hupper
  · show upperL (MorseEncoder.decode ((SubstitutionCipher.mk key).encode
      ((SubstitutionCipher.mk key).encode (MorseEncoder.encode text)))) = upperL text
    rw [subst_invol (SubstitutionCipher.mk key) encode_mem_alph, decode_encode htext]
    exact hupper

/-- Witness for C1 at the two-stage pipeline and the text `Sos 1`. -/
theorem C1_pipeline_roundtrip_witness :
    upperL ((EncoderChain.mk [EncoderInst.morse, EncoderInst.subst "swap"]).decode
      ((EncoderChain.mk [EncoderInst.morse, EncoderInst.subst "swap"]).encode
        "Sos 1".toList)) = upperL "Sos 1".toList :=
  C1_pipeline_roundtrip "swap" [EncoderInst.morse, EncoderInst.subst "swap"]
    "Sos 1".toList (Or.inr rfl) (by decide)

/-- C2 as stated is false: with a 1 ms unit, a single dot produces a buffer
slightly shorter than the stated 6002 ms, because the tone's sample count
`int(44100 * 1 / 1000) = 44` represents less than 1 ms. -/
theorem C2_duration_counterexample :
    ¬ (audioDurationMs (generate_morse_audio ['.'] 750 1) =
      6000 + ((['.'] : List Char).count '.' : ℚ) * (2 * 1)
        + ((['.'] : List Char).count '-' : ℚ) * (4 * 1)
        + ((['.'] : List Char).count ' ' : ℚ) * (2 * 1)
        + ((['.'] : List Char).count '/' : ℚ) * (6 * 1)) := by
  have h1 : (['.'] : List Char).count '.' = 1 := rfl
  have h2 : (['.'] : List Char).count '-' = 0 := rfl
  have h3 : (['.'] : List Char).count ' ' = 0 := rfl
  have h4 : (['.'] : List Char).count '/' = 0 := rfl
  rw [h1, h2, h3, h4]
  norm_num [audioDurationMs, generate_morse_audio, symbolSegs, Seg.durationMs, toneDurQ,
    toneNumSamples]

/-- C2 amended: the stated duration formula holds for every unit duration
that is a multiple of 10 ms, the case in which the truncated tone sample
counts are exact (the default of 100 ms included). -/
theorem C2_duration_formula (morse : List Char) (freq : ℚ) (u : ℕ) (hu : 10 ∣ u) :
    audioDurationMs (generate_morse_audio morse freq u) =
      6000 + (morse.count '.' : ℚ) * (2 * u) + (morse.count '-' : ℚ) * (4 * u)
      + (morse.count ' ' : ℚ) * (2 * u) + (morse.count '/' : ℚ) * (6 * u) := by
  unfold audioDurationMs generate_morse_audio
  rw [List.map_append, List.map_cons, List.sum_append, List.sum_cons]
  rw [mid_dur freq hu morse]
  simp only [List.map_cons, List.map_nil, List.sum_cons, List.sum_nil, Seg.durationMs]
  push_cast
  ring

/-- Witness for C2 at the Morse string for SOS with the default 100 ms
unit: an 8800 ms buffer. -/
theorem C2_duration_formula_witness :
    audioDurationMs (generate_morse_audio "... --- ...".toList 750 100) =
      6000 + (("... --- ...".toList).count '.' : ℚ) * (2 * 100)
      + (("... --- ...".toList).count '-' : ℚ) * (4 * 100)
      + (("... --- ...".toList).count ' ' : ℚ) * (2 * 100)
      + (("... --- ...".toList).count '/' : ℚ) * (6 * 100) :=
  C2_duration_formula "... --- ...".toList 750 100 (by decide)

/-- C3 as stated is false: the unsupported character contributes an empty
per-character code, but the single-space join still inserts a separator for
it, so encoding `Hello!` ends in an extra space. -/
theorem C3_unsupported_counterexample :
    MorseEncoder.encode "Hello!".toList ≠ MorseEncoder.encode "Hello".toList := by
  decide

/-- C3 amended: encoding `Hello!` yields the encoding of `Hello` followed by
one join-separator space; the `!` itself contributes no Morse symbols. -/
theorem C3_unsupported_amended :
    MorseEncoder.encode "Hello!".toList = MorseEncoder.encode "Hello".toList ++ [' '] := by
  decide

/-- C4: `generate_tone` returns a mono, 44100 Hz, 16-bit buffer whose every
sample is the float sine waveform at half amplitude, scaled by 32767 and
truncated to an integer of magnitude at most 16383; the buffer holds these
quantized integers, not raw float bytes. -/
theorem C4_tone_quantized (freq : ℚ) (durMs k : ℕ)
    (hk : k < (generate_tone freq durMs).numSamples) :
    (generate_tone freq durMs).frameRate = 44100 ∧
    (generate_tone freq durMs).sampleWidth = 2 ∧
    (generate_tone freq durMs).channels = 1 ∧
    (generate_tone freq durMs).sample k = intTrunc (toneWaveform freq durMs k * 32767) ∧
    |(generate_tone freq durMs).sample k| ≤ 16383 :=
  ⟨rfl, rfl, rfl, rfl, intTrunc_abs_le (toneWaveform_abs_le freq durMs k)⟩

/-- Witness for C4 at the default frequency and unit, first sample. -/
theorem C4_tone_quantized_witness :
    (generate_tone 750 100).frameRate = 44100 ∧
    (generate_tone 750 100).sampleWidth = 2 ∧
    (generate_tone 750 100).channels = 1 ∧
    (generate_tone 750 100).sample 0 = intTrunc (toneWaveform 750 100 0 * 32767) ∧
    |(generate_tone 750 100).sample 0| ≤ 16383 :=
  C4_tone_quantized 750 100 0 (by decide)

/-- C5: on strings over the Morse alphabet, applying the substitution cipher
twice is the identity, and its decode is the identical function as its
encode. -/
theorem C5_substitution_involution (key : String) (m : List Char)
    (h : ∀ c ∈ m, c ∈ (['.', '-', ' ', '/'] : List Char)) :
    (SubstitutionCipher.mk key).encode ((SubstitutionCipher.mk key).encode m) = m ∧
    (SubstitutionCipher.mk key).decode m = (SubstitutionCipher.mk key).encode m :=
  ⟨subst_invol _ h, rfl⟩

/-- Witness for C5 on a concrete Morse string. -/
theorem C5_substitution_involution_witness :
    (SubstitutionCipher.mk "swap").encode ((SubstitutionCipher.mk "swap").encode
      "... --- / .-".toList) = "... --- / .-".toList ∧
    (SubstitutionCipher.mk "swap").decode "... --- / .-".toList =
      (SubstitutionCipher.mk "swap").encode "... --- / .-".toList :=
  C5_substitution_involution "swap" "... --- / .-".toList (by decide)

/-- C6: the empty text encodes to the empty Morse string, whose buffer is
the lead-in and lead-out silence only, exactly 6000 ms. -/
theorem C6_empty_input (freq : ℚ) (u : ℕ) :
    MorseEncoder.encode [] = [] ∧
    generate_morse_audio [] freq u = [Seg.silence 3000, Seg.silence 3000] ∧
    audioDurationMs (generate_morse_audio [] freq u) = 6000 := by
  refine ⟨rfl, rfl, ?_⟩
  norm_num [audioDurationMs, generate_morse_audio, symbolSegs, Seg.durationMs]

/-- C7: whenever the underlying export raises, `save_audio` prints the
failure with its message, exits with status 1, and does not behave as the
successful path does. -/
theorem C7_export_error_surfaced (e filename fmt : String) :
    (save_audio (ExportOutcome.failure e) filename fmt).exitCode = some 1 ∧
    ("Failed to save audio to " ++ filename ++ ": " ++ e) ∈
      (save_audio (ExportOutcome.failure e) filename fmt).printed ∧
    save_audio (ExportOutcome.failure e) filename fmt ≠
      save_audio ExportOutcome.success filename fmt := by
  refine ⟨rfl, by simp [save_audio], fun hcontra => ?_⟩
  have h := congrArg SaveResult.exitCode hcontra
  simp [save_audio] at h

/-- C8: the substitution cipher's key never influences encode or decode:
any two keys produce identical behaviour on every input. -/
theorem C8_key_noninterference (k1 k2 : String) (m : List Char) :
    (SubstitutionCipher.mk k1).encode m = (SubstitutionCipher.mk k2).encode m ∧
    (SubstitutionCipher.mk k1).decode m = (SubstitutionCipher.mk k2).decode m :=
  ⟨rfl, rfl⟩

/-- C9: every character of a Morse encoding is a dot, dash, space or slash;
in particular the cipher's placeholder `X` never occurs in encoder output. -/
theorem C9_output_alphabet (text : List Char) :
    (∀ c ∈ MorseEncoder.encode text, c ∈ (['.', '-', ' ', '/'] : List Char)) ∧
    'X' ∉ MorseEncoder.encode text := by
  refine ⟨encode_mem_alph, fun hx => ?_⟩
  have h := encode_mem_alph 'X' hx
  simp at h

/-- Witness for C9 on a one-letter text. -/
theorem C9_output_alphabet_witness :
    '.' ∈ (['.', '-', ' ', '/'] : List Char) :=
  (C9_output_alphabet ['e']).1 '.' (by decide)

/-- C10: audio generation is total on arbitrary strings: every buffer lasts
at least the 6000 ms of framing silence, and a character other than the four
Morse symbols appends no segment at all. -/
theorem C10_totality (morse : List Char) (freq : ℚ) (u : ℕ) :
    6000 ≤ audioDurationMs (generate_morse_audio morse freq u) ∧
    ∀ c, c ∉ (['.', '-', ' ', '/'] : List Char) → symbolSegs freq u c = [] := by
  constructor
  · unfold audioDurationMs generate_morse_audio
    rw [List.map_append, List.map_cons, List.sum_append, List.sum_cons]
    have hmid : 0 ≤ ((List.map (symbolSegs freq u) morse).flatten.map Seg.durationMs).sum := by
      apply List.sum_nonneg
      intro x hx
      simp only [List.mem_map] at hx
      obtain ⟨s, hs, rfl⟩ := hx
      exact seg_duration_nonneg s
    simp only [List.map_cons, List.map_nil, List.sum_cons, List.sum_nil, Seg.durationMs]
    push_cast
    linarith
  · intro c hc
    simp only [List.mem_cons, List.mem_singleton, not_or] at hc
    obtain ⟨h1, h2, h3, h4⟩ := hc
    simp [symbolSegs, h1, h2, h3, h4]

/-- Witness for C10 at a non-symbol character. -/
theorem C10_totality_witness : symbolSegs 750 100 'a' = [] :=
  (C10_totality ['a'] 750 100).2 'a' (by decide)
